import Mathlib

set_option maxHeartbeats 1000000

/-!
A shallow embedding of the core of the clamp template processor
(`src/lib.rs`): the include-directive scanner (the regex
`\[\[include:\s*(.*?)\s*\]\]` together with `captures_iter`), template
processing (`process_template`), the hash map (`BTreeMap` modelled as a
key-sorted association list), change detection (`compare_hashes`),
lockfile path derivation (`get_lockfile_path`) and lockfile loading
(`read_lockfile`).

Filesystem access, the SHA-256 implementation of the `sha2` crate and the
TOML parser are external to the repository and are modelled as explicit
parameters (`FS`, `sha256hex`, `parseToml`).  Paths are POSIX-style
strings; the fragments of `std::path` that the code uses (`parent`,
`join`, `extension`, `with_extension`, `file_name`) are embedded below.
Template text and file text are `List Char`; file contents on disk are
raw bytes (`List Nat`), decoded by an executable UTF-8 decoder mirroring
`String::from_utf8` / `fs::read_to_string` validation.
-/

/-- Unicode white-space code points: the set matched by the regex class
`\s` (Unicode mode) and by Rust `char::is_whitespace` (used by
`str::trim`). -/
def wsChars : List Char :=
  ['\t', '\n', '\x0b', '\x0c', '\r', ' ', '\u0085', ' ', ' ',
   ' ', ' ', ' ', ' ', ' ', ' ', ' ',
   ' ', ' ', ' ', ' ', ' ', ' ', ' ',
   ' ', '　']

/-- Decides membership in the regex white-space class `\s`. -/
def isWs (c : Char) : Bool := wsChars.contains c

/-- Drops trailing white-space (the effect of the trailing greedy `\s*`
of the directive regex on the lazy capture). -/
def rstrip (l : List Char) : List Char := (l.reverse.dropWhile isWs).reverse

/-- Rust `str::trim`: drops leading and trailing Unicode white-space. -/
def trimChars (l : List Char) : List Char := rstrip (l.dropWhile isWs)

/-- Literal directive opener matched by `\[\[include:`. -/
def incTok : List Char := "[[include:".data

/-- Splits a character list at the first occurrence of the two-character
terminator `]]` (the non-greedy `(.*?)` of the regex stops at the first
`]]`): returns the part strictly before the first `]]` and the part after
it, or `none` when no `]]` occurs. -/
def splitRB : List Char → Option (List Char × List Char)
  | [] => none
  | c :: rest =>
    if c = ']' ∧ rest.head? = some ']' then some ([], rest.tail)
    else
      match splitRB rest with
      | some (a, b) => some (c :: a, b)
      | none => none

/-- Attempts to match `\s*(.*?)\s*\]\]` at the start of `after` (the text
following the literal `[[include:`), with the backtracking semantics of
the Rust `regex` crate: the leading `\s*` is greedy, the capture is lazy
and `.` does not match a newline, so the match ends at the first `]]` and
the capture is the text between the white-space runs, provided it contains
no newline.  Returns `(consumed text, capture, remainder)`. -/
def tryDirective (after : List Char) : Option (List Char × List Char × List Char) :=
  match splitRB (after.dropWhile isWs) with
  | none => none
  | some (between, rest) =>
    if (rstrip between).contains '\n' then none
    else some (after.takeWhile isWs ++ between ++ [']', ']'], rstrip between, rest)

/-- Finds the leftmost match of the include-directive regex: the first
occurrence of `[[include:` at which `tryDirective` succeeds.  Returns
`(text before the match, matched text, capture, text after the match)`. -/
def findMatch : List Char → Option (List Char × List Char × List Char × List Char)
  | [] => none
  | c :: cs =>
    if incTok.isPrefixOf (c :: cs) then
      match tryDirective ((c :: cs).drop incTok.length) with
      | some (mt, cap, rest) => some ([], incTok ++ mt, cap, rest)
      | none =>
        match findMatch cs with
        | some (pre, mt, cap, rest) => some (c :: pre, mt, cap, rest)
        | none => none
    else
      match findMatch cs with
      | some (pre, mt, cap, rest) => some (c :: pre, mt, cap, rest)
      | none => none

/-- Fueled iteration of `findMatch`, mirroring `captures_iter`: matches
are found left to right, each search resuming after the end of the
previous match (non-overlapping).  Returns the list of
`(preceding text, matched text, capture)` triples and the trailing text
after the last match.  Every match consumes at least twelve characters,
so fuel `s.length` never runs out. -/
def scanFuel : Nat → List Char → List (List Char × List Char × List Char) × List Char
  | 0, s => ([], s)
  | f + 1, s =>
    match findMatch s with
    | none => ([], s)
    | some (pre, mt, cap, rest) =>
      ((pre, mt, cap) :: (scanFuel f rest).1, (scanFuel f rest).2)

/-- All non-overlapping matches of the include-directive regex in source
order, as produced by `captures_iter` in `process_template`. -/
def scan (s : List Char) : List (List Char × List Char × List Char) × List Char :=
  scanFuel s.length s

/-- Strict UTF-8 decoding of a byte sequence, mirroring the validation
done by `String::from_utf8` and `fs::read_to_string` (rejects
continuation-byte leaders, overlong encodings, surrogates and code points
above `0x10FFFF`). -/
def utf8Decode : List Nat → Option (List Char)
  | [] => some []
  | b :: r =>
    if b < 0x80 then (utf8Decode r).map (fun cs => Char.ofNat b :: cs)
    else if b < 0xC2 then none
    else if b < 0xE0 then
      match r with
      | c1 :: r2 =>
        if 0x80 ≤ c1 ∧ c1 < 0xC0 then
          (utf8Decode r2).map (fun cs => Char.ofNat ((b - 0xC0) * 0x40 + (c1 - 0x80)) :: cs)
        else none
      | [] => none
    else if b < 0xF0 then
      match r with
      | c1 :: c2 :: r3 =>
        if (if b = 0xE0 then 0xA0 ≤ c1 ∧ c1 < 0xC0
            else if b = 0xED then 0x80 ≤ c1 ∧ c1 < 0xA0
            else 0x80 ≤ c1 ∧ c1 < 0xC0) ∧ 0x80 ≤ c2 ∧ c2 < 0xC0 then
          (utf8Decode r3).map (fun cs =>
            Char.ofNat ((b - 0xE0) * 0x1000 + (c1 - 0x80) * 0x40 + (c2 - 0x80)) :: cs)
        else none
      | _ => none
    else if b ≤ 0xF4 then
      match r with
      | c1 :: c2 :: c3 :: r4 =>
        if (if b = 0xF0 then 0x90 ≤ c1 ∧ c1 < 0xC0
            else if b = 0xF4 then 0x80 ≤ c1 ∧ c1 < 0x90
            else 0x80 ≤ c1 ∧ c1 < 0xC0) ∧ 0x80 ≤ c2 ∧ c2 < 0xC0 ∧ 0x80 ≤ c3 ∧ c3 < 0xC0 then
          (utf8Decode r4).map (fun cs =>
            Char.ofNat ((b - 0xF0) * 0x40000 + (c1 - 0x80) * 0x1000 +
              (c2 - 0x80) * 0x40 + (c3 - 0x80)) :: cs)
        else none
      | _ => none
    else none

/-- Encodes an ASCII string as its bytes (test helper; agrees with UTF-8
on ASCII-only text). -/
def asciiEnc (s : String) : List Nat := s.data.map Char.toNat

/-- Removes trailing `/` separators, as Rust path component iteration
ignores them. -/
def stripTrail (l : List Char) : List Char := (l.reverse.dropWhile (fun c => c == '/')).reverse

/-- Final component of a path (the text after the last `/`); the caller
applies `stripTrail` first where Rust ignores trailing separators. -/
def fileNamePart (l : List Char) : List Char := (l.reverse.takeWhile (fun c => !(c == '/'))).reverse

/-- Rust `Path::parent`: the path minus its last component, `none` for
the empty path and for the root.  (Path normalization of `.` and `..`
components is not modelled; the repository never constructs such paths.) -/
def pathParent (p : String) : Option String :=
  if stripTrail p.data = [] then none
  else
    if (stripTrail p.data).take ((stripTrail p.data).length - (fileNamePart (stripTrail p.data)).length) = [] then
      some ⟨[]⟩
    else if stripTrail ((stripTrail p.data).take ((stripTrail p.data).length - (fileNamePart (stripTrail p.data)).length)) = [] then
      some ⟨['/']⟩
    else
      some ⟨stripTrail ((stripTrail p.data).take ((stripTrail p.data).length - (fileNamePart (stripTrail p.data)).length))⟩

/-- Rust `Path::join` (POSIX): an absolute right operand replaces the
whole path; otherwise the operands are concatenated with a `/` separator
inserted when the left operand does not already end in one. -/
def joinPath (p q : String) : String :=
  if q.data.head? = some '/' then q
  else if p.data = [] then q
  else if p.data.getLast? = some '/' then ⟨p.data ++ q.data⟩
  else ⟨p.data ++ '/' :: q.data⟩

/-- Rust `Path::file_name`: the final path component, `none` when the
path is empty, all separators, or ends in `.` or `..`. -/
def pathFileName (p : String) : Option String :=
  if fileNamePart (stripTrail p.data) = [] ∨ fileNamePart (stripTrail p.data) = ['.']
      ∨ fileNamePart (stripTrail p.data) = ['.', '.'] then none
  else some ⟨fileNamePart (stripTrail p.data)⟩

/-- Splits a file name at its last `.` into stem and extension, following
Rust semantics: no extension when there is no `.` or when the only `.` is
the leading character (hidden files). -/
def extSplit (fn : List Char) : Option (List Char × List Char) :=
  if (fn.reverse.takeWhile (fun c => !(c == '.'))).length + 1 < fn.length then
    some (fn.take (fn.length - (fn.reverse.takeWhile (fun c => !(c == '.'))).length - 1),
      (fn.reverse.takeWhile (fun c => !(c == '.'))).reverse)
  else none

/-- Rust `Path::extension`. -/
def pathExtension (p : String) : Option String :=
  match pathFileName p with
  | none => none
  | some fn =>
    match extSplit fn.data with
    | some (_, ex) => some ⟨ex⟩
    | none => none

/-- Rust `Path::file_stem` on a file name: the part before the last `.`,
or the whole name when there is no extension. -/
def fileStemOf (fn : List Char) : List Char :=
  match extSplit fn with
  | some (st, _) => st
  | none => fn

/-- Replaces the final component of a path, keeping the directory part
(including its separator) unchanged. -/
def replaceFileName (p : String) (newName : List Char) : String :=
  ⟨(stripTrail p.data).take ((stripTrail p.data).length - (fileNamePart (stripTrail p.data)).length) ++ newName⟩

/-- Rust `Path::with_extension` / `set_extension`: a path with no file
name is returned unchanged, otherwise the file name is replaced by
`stem.ext` (or just `stem` when `ext` is empty). -/
def withExtension (p ext : String) : String :=
  match pathFileName p with
  | none => p
  | some fn =>
    replaceFileName p (if ext.data = [] then fileStemOf fn.data else fileStemOf fn.data ++ '.' :: ext.data)

/-- Embeds `get_lockfile_path` from `src/lib.rs`: the template path with
its extension replaced by `<ext>.lock`, or with extension `lock` when it
has none. -/
def get_lockfile_path (p : String) : String :=
  match pathExtension p with
  | some ex => withExtension p ⟨ex.data ++ ".lock".data⟩
  | none => withExtension p "lock"

/-- Lexicographic order on character lists, the model of the `Ord`
instance that `BTreeMap<PathBuf, _>` sorts its keys by. -/
def strLt : List Char → List Char → Bool
  | [], [] => false
  | [], _ :: _ => true
  | _ :: _, [] => false
  | a :: as, b :: bs =>
    if a < b then true
    else if b < a then false
    else strLt as bs

/-- Lookup in an association list (a `BTreeMap` is modelled as its sorted
entry list; `get` / `contains_key`). -/
def findVal {α : Type} : List (String × α) → String → Option α
  | [], _ => none
  | (k, v) :: t, q => if q = k then some v else findVal t q

/-- Ordered insert with replacement, the model of `BTreeMap::insert`
(last write wins on an existing key). -/
def insertS {α : Type} (k : String) (v : α) : List (String × α) → List (String × α)
  | [] => [(k, v)]
  | (k', v') :: t =>
    if strLt k.data k'.data then (k, v) :: (k', v') :: t
    else if k = k' then (k, v) :: t
    else (k', v') :: insertS k v t

/-- Rust `BTreeMap::contains_key`. -/
def containsM {α : Type} (m : List (String × α)) (q : String) : Bool := (findVal m q).isSome

/-- Well-formedness of the `BTreeMap` model: entries strictly sorted by
key (hence keys are unique). -/
@[reducible]
def SortedM {α : Type} (m : List (String × α)) : Prop :=
  m.Pairwise (fun a b => strLt a.1.data b.1.data = true)

/-- Outcome of a raw filesystem read, distinguishing the `NotFound` error
kind that `read_lockfile` treats specially. -/
inductive ReadRes where
  | ok (bytes : List Nat)
  | notFound
  | err
deriving DecidableEq

/-- The filesystem boundary used by the code: existence test
(`Path::exists`), canonicalization (`fs::canonicalize`, `none` on
failure) and raw reads (`fs::read`). -/
structure FS where
  pathExists : String → Bool
  canonicalize : String → Option String
  readFile : String → ReadRes

/-- Errors of `process_template`, one constructor per `bail!` /
`with_context` site, carrying the data interpolated into the message. -/
inductive ProcErr where
  | templateRead (tmpl : String)
  | noParent (tmpl : String)
  | includeNotFound (resolved tmpl ref : String)
  | canonicalizeErr (p : String)
  | readErr (p : String)
  | encodingErr (p : String)
deriving DecidableEq

/-- Result of `process_template`: the composed output and the map of
canonical paths to current hashes. -/
structure ProcResult where
  output_content : List Char
  current_hashes : List (String × String)
deriving DecidableEq

/-- The rendered include block
`write!(buffer, "... lang hint, newline, content, newline, fence, newline")`
of `process_template` (a fenced code block). -/
def renderBlock (lang : String) (content : List Char) : List Char :=
  '`' :: '`' :: '`' :: (lang.data ++ '\n' :: (content ++ '\n' :: '`' :: '`' :: '`' :: ['\n']))

/-- The per-match loop body of `process_template`, folded over the list
of regex matches: resolve the trimmed reference against the template
directory, require existence, canonicalize, read, hash and record, decode
as UTF-8, and emit preceding text plus the rendered block. -/
def processMatches (fsys : FS) (sha256hex : List Nat → String) (tmplPath baseDir : String) :
    List (List Char × List Char × List Char) → List (String × String) →
      Except ProcErr (List Char × List (String × String))
  | [], acc => .ok ([], acc)
  | (pre, _mt, cap) :: rest, acc =>
    if fsys.pathExists (joinPath baseDir ⟨trimChars cap⟩) = false then
      .error (.includeNotFound (joinPath baseDir ⟨trimChars cap⟩) tmplPath ⟨trimChars cap⟩)
    else
      match fsys.canonicalize (joinPath baseDir ⟨trimChars cap⟩) with
      | none => .error (.canonicalizeErr (joinPath baseDir ⟨trimChars cap⟩))
      | some canon =>
        match fsys.readFile canon with
        | .ok bytes =>
          match utf8Decode bytes with
          | none => .error (.encodingErr canon)
          | some fileText =>
            match processMatches fsys sha256hex tmplPath baseDir rest (insertS canon (sha256hex bytes) acc) with
            | .ok (out, m) =>
              .ok (pre ++ renderBlock ((pathExtension (joinPath baseDir ⟨trimChars cap⟩)).getD ⟨[]⟩) fileText ++ out, m)
            | .error e => .error e
        | .notFound => .error (.readErr canon)
        | .err => .error (.readErr canon)

/-- Embeds `process_template` from `src/lib.rs`: read the template as
UTF-8, take its parent directory, scan for directives and fold the
include-resolution loop, appending the trailing text after the last
match. -/
def processTemplate (fsys : FS) (sha256hex : List Nat → String) (tmplPath : String) :
    Except ProcErr ProcResult :=
  match fsys.readFile tmplPath with
  | .ok tb =>
    match utf8Decode tb with
    | none => .error (.templateRead tmplPath)
    | some content =>
      match pathParent tmplPath with
      | none => .error (.noParent tmplPath)
      | some baseDir =>
        match processMatches fsys sha256hex tmplPath baseDir (scan content).1 [] with
        | .ok (out, m) => .ok ⟨out ++ (scan content).2, m⟩
        | .error e => .error e
  | .notFound => .error (.templateRead tmplPath)
  | .err => .error (.templateRead tmplPath)

/-- Embeds the `ChangeStatus` enum of `src/lib.rs`. -/
inductive ChangeStatus where
  | Unchanged
  | Modified
  | Added
  | Removed
deriving DecidableEq

/-- Loop body of the first pass of `compare_hashes` (over the current
map): classify Modified or Added, omit on digest equality. -/
def diffStep (locked : List (String × String)) (acc : List (String × ChangeStatus))
    (pc : String × String) : List (String × ChangeStatus) :=
  match findVal locked pc.1 with
  | some lockedHash => if pc.2 ≠ lockedHash then insertS pc.1 ChangeStatus.Modified acc else acc
  | none => insertS pc.1 ChangeStatus.Added acc

/-- Loop body of the second pass of `compare_hashes` (over the locked
map's keys): classify Removed when no longer included. -/
def removedStep (current : List (String × String)) (acc : List (String × ChangeStatus))
    (pl : String × String) : List (String × ChangeStatus) :=
  if containsM current pl.1 then acc else insertS pl.1 ChangeStatus.Removed acc

/-- Embeds `compare_hashes` from `src/lib.rs`. -/
def compare_hashes (current locked : List (String × String)) : List (String × ChangeStatus) :=
  locked.foldl (removedStep current) (current.foldl (diffStep locked) [])

/-- Embeds the `LockfileData` struct (canonical path to hex digest). -/
structure LockfileData where
  files : List (String × String)
deriving DecidableEq

/-- Errors of `read_lockfile`: I/O failure or malformed TOML. -/
inductive LockErr where
  | readErr (p : String)
  | parseErr (p : String)
deriving DecidableEq

/-- Embeds `read_lockfile` from `src/lib.rs`: a missing lockfile is an
empty prior state (with a warning printed, a side effect outside the
model), `NotFound` during the read likewise; other read failures and
parse failures are errors.  The TOML codec is the external parameter
`parseToml`. -/
def read_lockfile (fsys : FS) (parseToml : List Char → Option (List (String × String)))
    (lockfilePath : String) : Except LockErr LockfileData :=
  if fsys.pathExists lockfilePath = false then .ok ⟨[]⟩
  else
    match fsys.readFile lockfilePath with
    | .ok bytes =>
      match utf8Decode bytes with
      | some content =>
        match parseToml content with
        | some files => .ok ⟨files⟩
        | none => .error (.parseErr lockfilePath)
      | none => .error (.readErr lockfilePath)
    | .notFound => .ok ⟨[]⟩
    | .err => .error (.readErr lockfilePath)

/-- Concrete filesystem for the spec's scenario: template
`d/t.clamp` containing `[[include: a.txt]]`, and `a.txt` containing
`hi`. -/
def fsC1 : FS :=
  ⟨fun p => p == "d/a.txt",
   fun p => if p = "d/a.txt" then some "/r/a.txt" else none,
   fun p => if p = "d/t.clamp" then .ok (asciiEnc "[[include: a.txt]]")
            else if p = "/r/a.txt" then .ok (asciiEnc "hi") else .notFound⟩

/-- Concrete filesystem holding a template with no directives. -/
def fsC3 : FS :=
  ⟨fun _ => false, fun _ => none,
   fun p => if p = "d/plain.clamp" then .ok (asciiEnc "no directives here\n") else .notFound⟩

/-- Concrete filesystem holding a template whose include target is
missing. -/
def fsC4 : FS :=
  ⟨fun _ => false, fun _ => none,
   fun p => if p = "d/m.clamp" then .ok (asciiEnc "x [[include: missing.txt]] y") else .notFound⟩

/-- Concrete filesystem where two distinct references canonicalize to
the same file. -/
def fsC7 : FS :=
  ⟨fun p => p == "d/a" || p == "d/b",
   fun p => if p = "d/a" ∨ p = "d/b" then some "/r/f" else none,
   fun p => if p = "d/two.clamp" then .ok (asciiEnc "[[include: a]][[include: b]]")
            else if p = "/r/f" then .ok (asciiEnc "z") else .notFound⟩

/-- Concrete filesystem for an empty reference: the resolved path `d/`
exists (it is the template directory), canonicalizes, and then fails to
read as a file. -/
def fsC9 : FS :=
  ⟨fun p => p == "d/",
   fun p => if p = "d/" then some "/r/d" else none,
   fun p => if p = "d/e.clamp" then .ok (asciiEnc "[[include:]]") else .err⟩

/-- Concrete filesystem for an absolute reference that does not exist. -/
def fsC10 : FS :=
  ⟨fun _ => false, fun _ => none,
   fun p => if p = "d/abs.clamp" then .ok (asciiEnc "[[include: /etc/x]]") else .notFound⟩

/-- Concrete filesystem on which no path exists. -/
def fsEmpty : FS := ⟨fun _ => false, fun _ => none, fun _ => .notFound⟩

/-- Reassembles a template from the scan decomposition: preceding text
and matched text of every directive, then the trailing text. -/
def scanRecon (ms : List (List Char × List Char × List Char)) (tr : List Char) : List Char :=
  ms.foldr (fun m acc => m.1 ++ m.2.1 ++ acc) tr

/-- Predicate: every character is regex white-space. -/
@[reducible]
def allWsL (l : List Char) : Prop := ∀ c ∈ l, isWs c = true

/-- Predicate: the two-character sequence `]]` occurs nowhere. -/
def noRB (l : List Char) : Prop := ∀ a b, l ≠ a ++ ']' :: ']' :: b

/-- Shape of a regex match: literal `[[include:`, white-space, the
(already trimmed) capture, white-space, and the terminating `]]`, which
is the first `]]` after the opener (no `]]` occurs before it, not even
one overlapping the terminator). -/
def MatchShape (mt cap : List Char) : Prop :=
  ∃ ws1 ws2, mt = incTok ++ ws1 ++ cap ++ ws2 ++ [']', ']'] ∧ allWsL ws1 ∧ allWsL ws2 ∧
    noRB (ws1 ++ cap ++ ws2 ++ [']']) ∧ trimChars cap = cap ∧ '\n' ∉ cap

/-! Order facts about the key comparison. -/

theorem strLt_irrefl : ∀ l, strLt l l = false := by
  intro l
  induction l with
  | nil => rfl
  | cons a as ih => simp [strLt, ih]

theorem strLt_trans : ∀ a b c, strLt a b = true → strLt b c = true → strLt a c = true := by
  intro a
  induction a with
  | nil => intro b c h1 h2; cases b <;> cases c <;> simp_all [strLt]
  | cons x xs ih =>
    intro b c h1 h2
    cases b with
    | nil => simp_all [strLt]
    | cons y ys =>
      cases c with
      | nil => simp_all [strLt]
      | cons z zs =>
        simp only [strLt] at h1 h2 ⊢
        rcases lt_trichotomy x y with hxy | hxy | hxy <;>
          rcases lt_trichotomy y z with hyz | hyz | hyz <;>
            first
              | (simp_all [not_lt_of_lt, lt_asymm, lt_trans hxy hyz])
              | (subst hxy; subst hyz
                 simp_all
                 exact ih _ _ h1 h2)
              | (subst hxy; simp_all)
              | (subst hyz; simp_all)
              | simp_all [not_lt_of_lt, lt_asymm]

theorem strLt_eq_of_not : ∀ a b, strLt a b = false → strLt b a = false → a = b := by
  intro a
  induction a with
  | nil => intro b h1 h2; cases b <;> simp_all [strLt]
  | cons x xs ih =>
    intro b h1 h2
    cases b with
    | nil => simp_all [strLt]
    | cons y ys =>
      simp only [strLt] at h1 h2
      rcases lt_trichotomy x y with hxy | hxy | hxy
      · simp [hxy] at h1
      · subst hxy
        simp_all
        exact ih ys h1 h2
      · simp [hxy, not_lt_of_lt hxy] at h2

theorem strLt_ne {a b : List Char} (h : strLt a b = true) : a ≠ b := by
  intro hEq
  subst hEq
  rw [strLt_irrefl] at h
  exact Bool.false_ne_true h

theorem strLt_total {a b : String} (h1 : ¬strLt a.data b.data = true) (hne : a ≠ b) :
    strLt b.data a.data = true := by
  rw [Bool.not_eq_true] at h1
  cases hlt : strLt b.data a.data
  · exfalso
    apply hne
    have hd := strLt_eq_of_not _ _ h1 hlt
    cases a
    cases b
    exact congrArg String.mk hd
  · rfl

/-! Lemmas about the association-list model of BTreeMap. -/

theorem findVal_insertS_self {α : Type} (k : String) (v : α) (m : List (String × α)) :
    findVal (insertS k v m) k = some v := by
  induction m with
  | nil => simp [insertS, findVal]
  | cons e t ih =>
    obtain ⟨k', v'⟩ := e
    by_cases h1 : strLt k.data k'.data
    · simp [insertS, h1, findVal]
    · by_cases h2 : k = k'
      · subst h2; simp [insertS, h1, findVal]
      · have hne : k ≠ k' := h2
        simp [insertS, h1, h2, findVal, hne, ih]

theorem findVal_insertS_ne {α : Type} {k q : String} (v : α) (m : List (String × α))
    (h : q ≠ k) : findVal (insertS k v m) q = findVal m q := by
  induction m with
  | nil => simp [insertS, findVal, h]
  | cons e t ih =>
    obtain ⟨k', v'⟩ := e
    by_cases h1 : strLt k.data k'.data
    · simp [insertS, h1, findVal, h]
    · by_cases h2 : k = k'
      · subst h2; simp [insertS, h1, findVal, h]
      · simp only [insertS, h1, if_false, h2, ite_false]
        by_cases h3 : q = k'
        · simp [findVal, h3]
        · simp [findVal, h3, ih]

theorem mem_insertS {α : Type} {k : String} {v : α} {m : List (String × α)}
    {e : String × α} (h : e ∈ insertS k v m) : e = (k, v) ∨ e ∈ m := by
  induction m with
  | nil => simp [insertS] at h; simp [h]
  | cons x t ih =>
    obtain ⟨k', v'⟩ := x
    by_cases h1 : strLt k.data k'.data
    · simp [insertS, h1] at h
      rcases h with h | h | h
      · exact Or.inl h
      · exact Or.inr (by simp [h])
      · exact Or.inr (by simp [h])
    · by_cases h2 : k = k'
      · subst h2
        simp [insertS, h1] at h
        rcases h with h | h
        · exact Or.inl h
        · exact Or.inr (by simp [h])
      · rw [show insertS k v ((k', v') :: t) = (k', v') :: insertS k v t by
              simp [insertS, h1, h2]] at h
        rcases List.mem_cons.mp h with hA | hA
        · exact Or.inr (by simp [hA])
        · rcases ih hA with h' | h'
          · exact Or.inl h'
          · exact Or.inr (by simp [h'])

theorem sortedM_insertS {α : Type} (k : String) (v : α) {m : List (String × α)}
    (h : SortedM m) : SortedM (insertS k v m) := by
  induction m with
  | nil => simp [insertS, SortedM]
  | cons x t ih =>
    obtain ⟨k', v'⟩ := x
    rw [SortedM, List.pairwise_cons] at h
    obtain ⟨hall, ht⟩ := h
    by_cases h1 : strLt k.data k'.data
    · rw [SortedM]
      simp only [insertS, h1, if_true]
      constructor
      · intro e he
        rcases (List.mem_cons.mp he) with h' | h'
        · subst h'; exact h1
        · exact strLt_trans _ _ _ h1 (hall e h')
      · exact List.pairwise_cons.mpr ⟨hall, ht⟩
    · by_cases h2 : k = k'
      · subst h2
        rw [SortedM]
        simp only [insertS, h1, if_false, ite_true]
        exact List.pairwise_cons.mpr ⟨hall, ht⟩
      · rw [SortedM]
        simp only [insertS, h1, if_false, h2, ite_false]
        refine List.pairwise_cons.mpr ⟨?_, ih ht⟩
        intro e he
        rcases mem_insertS he with h' | h'
        · subst h'
          exact strLt_total h1 h2
        · exact hall e h'

theorem findVal_some_mem {α : Type} {m : List (String × α)} {q : String} {v : α}
    (h : findVal m q = some v) : (q, v) ∈ m := by
  induction m with
  | nil => simp [findVal] at h
  | cons e t ih =>
    obtain ⟨k, w⟩ := e
    by_cases hq : q = k
    · subst hq
      simp [findVal] at h
      simp [h]
    · simp [findVal, hq] at h
      exact List.mem_cons_of_mem _ (ih h)

theorem findVal_none_keys {α : Type} {m : List (String × α)} {q : String}
    (h : findVal m q = none) : ∀ e ∈ m, e.1 ≠ q := by
  induction m with
  | nil => intro e he; cases he
  | cons x t ih =>
    obtain ⟨k, w⟩ := x
    by_cases hq : q = k
    · subst hq; simp [findVal] at h
    · simp [findVal, hq] at h
      intro e he
      rcases List.mem_cons.mp he with h' | h'
      · subst h'; exact fun hc => hq hc.symm
      · exact ih h e h'

theorem pairwise_ne_of_sorted {α : Type} {m : List (String × α)} (h : SortedM m) :
    m.Pairwise (fun a b => a.1 ≠ b.1) := by
  refine List.Pairwise.imp ?_ h
  intro a b hlt heq
  exact strLt_ne hlt (congrArg String.data heq)

theorem findVal_diffStep_ne (locked : List (String × String))
    (acc : List (String × ChangeStatus)) (e : String × String) (p : String)
    (hne : e.1 ≠ p) : findVal (diffStep locked acc e) p = findVal acc p := by
  rcases hfv : findVal locked e.1 with _ | lh
  · simp [diffStep, hfv, findVal_insertS_ne _ _ (Ne.symm hne)]
  · by_cases hd : e.2 ≠ lh
    · simp [diffStep, hfv, hd, findVal_insertS_ne _ _ (Ne.symm hne)]
    · simp [diffStep, hfv, hd]

theorem foldl_diffStep_not_mem (locked : List (String × String))
    (cur : List (String × String)) (acc : List (String × ChangeStatus)) (p : String)
    (h : ∀ e ∈ cur, e.1 ≠ p) :
    findVal (cur.foldl (diffStep locked) acc) p = findVal acc p := by
  induction cur generalizing acc with
  | nil => rfl
  | cons e t ih =>
    rw [List.foldl_cons, ih _ (fun e' he' => h e' (List.mem_cons_of_mem _ he'))]
    exact findVal_diffStep_ne _ _ _ _ (h e (List.mem_cons_self _ _))

theorem foldl_diffStep_mem (locked : List (String × String))
    (cur : List (String × String)) (acc : List (String × ChangeStatus)) (p : String)
    (ch : String) (hpw : cur.Pairwise (fun a b => a.1 ≠ b.1)) (hmem : (p, ch) ∈ cur) :
    findVal (cur.foldl (diffStep locked) acc) p =
      match findVal locked p with
      | some lh => if ch ≠ lh then some ChangeStatus.Modified else findVal acc p
      | none => some ChangeStatus.Added := by
  induction cur generalizing acc with
  | nil => cases hmem
  | cons e t ih =>
    rw [List.pairwise_cons] at hpw
    obtain ⟨hhead, htail⟩ := hpw
    rcases List.mem_cons.mp hmem with he | hmt
    · have hkeys : ∀ e' ∈ t, e'.1 ≠ p := by
        intro e' he'
        have := hhead e' he'
        rw [← he] at this
        exact fun hc => this hc.symm
      rw [List.foldl_cons, foldl_diffStep_not_mem _ _ _ _ hkeys, ← he]
      rcases hfv : findVal locked p with _ | lh
      · simp [diffStep, ← he] at hfv ⊢
        simp [hfv, findVal_insertS_self]
      · by_cases hd : ch ≠ lh
        · simp [diffStep, ← he] at hfv ⊢
          simp [hfv, hd, findVal_insertS_self]
        · rw [not_not] at hd
          subst hd
          simp [diffStep, hfv]
    · have hne : e.1 ≠ p := hhead (p, ch) hmt
      rw [List.foldl_cons, ih _ htail hmt, findVal_diffStep_ne _ _ _ _ hne]

theorem findVal_removedStep_ne (cur : List (String × String))
    (acc : List (String × ChangeStatus)) (e : String × String) (p : String)
    (hne : e.1 ≠ p) : findVal (removedStep cur acc e) p = findVal acc p := by
  by_cases hc : containsM cur e.1
  · simp [removedStep, hc]
  · simp [removedStep, hc, findVal_insertS_ne _ _ (Ne.symm hne)]

theorem foldl_removedStep_not_mem (cur : List (String × String))
    (lk : List (String × String)) (acc : List (String × ChangeStatus)) (p : String)
    (h : ∀ e ∈ lk, e.1 ≠ p) :
    findVal (lk.foldl (removedStep cur) acc) p = findVal acc p := by
  induction lk generalizing acc with
  | nil => rfl
  | cons e t ih =>
    rw [List.foldl_cons, ih _ (fun e' he' => h e' (List.mem_cons_of_mem _ he'))]
    exact findVal_removedStep_ne _ _ _ _ (h e (List.mem_cons_self _ _))

theorem foldl_removedStep_contains (cur : List (String × String))
    (lk : List (String × String)) (acc : List (String × ChangeStatus)) (p : String)
    (hc : containsM cur p = true) :
    findVal (lk.foldl (removedStep cur) acc) p = findVal acc p := by
  induction lk generalizing acc with
  | nil => rfl
  | cons e t ih =>
    rw [List.foldl_cons, ih]
    by_cases hne : e.1 = p
    · simp [removedStep, hne, hc]
    · exact findVal_removedStep_ne _ _ _ _ hne

theorem foldl_removedStep_mem (cur : List (String × String))
    (lk : List (String × String)) (acc : List (String × ChangeStatus)) (p : String)
    (x : String) (hpw : lk.Pairwise (fun a b => a.1 ≠ b.1)) (hmem : (p, x) ∈ lk)
    (hc : containsM cur p = false) :
    findVal (lk.foldl (removedStep cur) acc) p = some ChangeStatus.Removed := by
  induction lk generalizing acc with
  | nil => cases hmem
  | cons e t ih =>
    rw [List.pairwise_cons] at hpw
    obtain ⟨hhead, htail⟩ := hpw
    rcases List.mem_cons.mp hmem with he | hmt
    · have hkeys : ∀ e' ∈ t, e'.1 ≠ p := by
        intro e' he'
        have := hhead e' he'
        rw [← he] at this
        exact fun hcj => this hcj.symm
      rw [List.foldl_cons, foldl_removedStep_not_mem _ _ _ _ hkeys, ← he]
      simp [removedStep, ← he] at hc ⊢
      simp [hc, findVal_insertS_self]
    · rw [List.foldl_cons, ih _ htail hmt]

theorem sortedM_diffStep (locked : List (String × String))
    (acc : List (String × ChangeStatus)) (e : String × String) (h : SortedM acc) :
    SortedM (diffStep locked acc e) := by
  rcases hfv : findVal locked e.1 with _ | lh
  · simpa [diffStep, hfv] using sortedM_insertS _ _ h
  · by_cases hd : e.2 ≠ lh
    · simpa [diffStep, hfv, hd] using sortedM_insertS _ _ h
    · simpa [diffStep, hfv, hd] using h

theorem sortedM_removedStep (cur : List (String × String))
    (acc : List (String × ChangeStatus)) (e : String × String) (h : SortedM acc) :
    SortedM (removedStep cur acc e) := by
  by_cases hc : containsM cur e.1
  · simpa [removedStep, hc] using h
  · simpa [removedStep, hc] using sortedM_insertS _ _ h

theorem sortedM_foldl_diffStep (locked cur : List (String × String)) :
    ∀ (acc : List (String × ChangeStatus)), SortedM acc →
      SortedM (cur.foldl (diffStep locked) acc) := by
  induction cur with
  | nil => exact fun acc h => h
  | cons e t ih =>
    intro acc h
    rw [List.foldl_cons]
    exact ih _ (sortedM_diffStep _ _ _ h)

theorem sortedM_foldl_removedStep (cur lk : List (String × String)) :
    ∀ (acc : List (String × ChangeStatus)), SortedM acc →
      SortedM (lk.foldl (removedStep cur) acc) := by
  induction lk with
  | nil => exact fun acc h => h
  | cons e t ih =>
    intro acc h
    rw [List.foldl_cons]
    exact ih _ (sortedM_removedStep _ _ _ h)

theorem sortedM_compare_hashes (cur locked : List (String × String)) :
    SortedM (compare_hashes cur locked) := by
  rw [compare_hashes]
  exact sortedM_foldl_removedStep _ _ _ (sortedM_foldl_diffStep _ _ _ List.Pairwise.nil)

/-- C2: for any two hash maps, current `A` and locked `B`, `compare_hashes`
classifies a path present only in `A` as Added, a path present only in `B`
as Removed, a path in both with differing digests as Modified, and omits a
path in both with equal digests; the change set is itself a strictly
key-sorted map, so no path receives more than one classification. -/
theorem compare_hashes_classification (A B : List (String × String))
    (hA : SortedM A) (hB : SortedM B) (p : String) :
    (∀ ha, findVal A p = some ha → findVal B p = none →
      findVal (compare_hashes A B) p = some ChangeStatus.Added) ∧
    (findVal A p = none → ∀ hb, findVal B p = some hb →
      findVal (compare_hashes A B) p = some ChangeStatus.Removed) ∧
    (∀ ha hb, findVal A p = some ha → findVal B p = some hb → ha ≠ hb →
      findVal (compare_hashes A B) p = some ChangeStatus.Modified) ∧
    (∀ ha, findVal A p = some ha → findVal B p = some ha →
      findVal (compare_hashes A B) p = none) ∧
    SortedM (compare_hashes A B) := by
  refine ⟨?_, ?_, ?_, ?_, sortedM_compare_hashes A B⟩
  · intro ha hfa hfb
    rw [compare_hashes,
      foldl_removedStep_contains _ _ _ _ (by simp [containsM, hfa]),
      foldl_diffStep_mem _ _ _ _ ha (pairwise_ne_of_sorted hA) (findVal_some_mem hfa), hfb]
  · intro hfa hb hfb
    rw [compare_hashes]
    exact foldl_removedStep_mem _ _ _ _ hb (pairwise_ne_of_sorted hB) (findVal_some_mem hfb)
      (by simp [containsM, hfa])
  · intro ha hb hfa hfb hne
    rw [compare_hashes,
      foldl_removedStep_contains _ _ _ _ (by simp [containsM, hfa]),
      foldl_diffStep_mem _ _ _ _ ha (pairwise_ne_of_sorted hA) (findVal_some_mem hfa), hfb]
    simp [hne]
  · intro ha hfa hfb
    rw [compare_hashes,
      foldl_removedStep_contains _ _ _ _ (by simp [containsM, hfa]),
      foldl_diffStep_mem _ _ _ _ ha (pairwise_ne_of_sorted hA) (findVal_some_mem hfa), hfb]
    simp [findVal]

/-- Witness for C2 at concrete maps exercising all four classifications. -/
theorem compare_hashes_classification_witness :
    findVal (compare_hashes [("a", "1"), ("p", "2"), ("u", "7")]
      [("b", "9"), ("p", "3"), ("u", "7")]) "a" = some ChangeStatus.Added ∧
    findVal (compare_hashes [("a", "1"), ("p", "2"), ("u", "7")]
      [("b", "9"), ("p", "3"), ("u", "7")]) "b" = some ChangeStatus.Removed ∧
    findVal (compare_hashes [("a", "1"), ("p", "2"), ("u", "7")]
      [("b", "9"), ("p", "3"), ("u", "7")]) "p" = some ChangeStatus.Modified ∧
    findVal (compare_hashes [("a", "1"), ("p", "2"), ("u", "7")]
      [("b", "9"), ("p", "3"), ("u", "7")]) "u" = none :=
  ⟨(compare_hashes_classification _ _ (by decide) (by decide) "a").1 "1" (by decide) (by decide),
   (compare_hashes_classification _ _ (by decide) (by decide) "b").2.1 (by decide) "9" (by decide),
   (compare_hashes_classification _ _ (by decide) (by decide) "p").2.2.1 "2" "3" (by decide)
     (by decide) (by decide),
   (compare_hashes_classification _ _ (by decide) (by decide) "u").2.2.2.1 "7" (by decide)
     (by decide)⟩

/-- C6: when the lockfile path does not exist, `read_lockfile` succeeds
with an empty map rather than an error (the warning is a stderr side
effect outside the model), and diffing any current map against the empty
locked map classifies every currently included path as Added. -/
theorem read_lockfile_missing (fsys : FS)
    (parseToml : List Char → Option (List (String × String))) (lockfilePath : String)
    (h : fsys.pathExists lockfilePath = false) :
    read_lockfile fsys parseToml lockfilePath = .ok ⟨[]⟩ ∧
    (∀ (cur : List (String × String)) (p ch : String), SortedM cur →
      findVal cur p = some ch →
      findVal (compare_hashes cur []) p = some ChangeStatus.Added) := by
  constructor
  · simp [read_lockfile, h]
  · intro cur p ch hsort hf
    rw [compare_hashes, List.foldl_nil,
      foldl_diffStep_mem _ _ _ _ ch (pairwise_ne_of_sorted hsort) (findVal_some_mem hf)]
    simp [findVal]

/-- Witness for C6: a lockfile path that does not exist on a concrete
filesystem, and a concrete current map whose only path is classified
Added. -/
theorem read_lockfile_missing_witness :
    read_lockfile fsEmpty (fun _ => none) "d/t.clamp.lock" = .ok ⟨[]⟩ ∧
    findVal (compare_hashes [("x", "1")] []) "x" = some ChangeStatus.Added :=
  ⟨(read_lockfile_missing fsEmpty (fun _ => none) "d/t.clamp.lock" (by decide)).1,
   (read_lockfile_missing fsEmpty (fun _ => none) "d/t.clamp.lock" (by decide)).2
     [("x", "1")] "x" "1" (by decide) (by decide)⟩

/-! Unfolding helpers for the template-processing pipeline. -/

theorem processTemplate_unfold (fsys : FS) (sha256hex : List Nat → String)
    (tmpl : String) (tb : List Nat) (content : List Char) (baseDir : String)
    (hread : fsys.readFile tmpl = .ok tb) (hutf : utf8Decode tb = some content)
    (hpar : pathParent tmpl = some baseDir) :
    processTemplate fsys sha256hex tmpl =
      match processMatches fsys sha256hex tmpl baseDir (scan content).1 [] with
      | .ok (out, m) => .ok ⟨out ++ (scan content).2, m⟩
      | .error e => .error e := by
  unfold processTemplate
  simp only [hread, hutf, hpar]

theorem processMatches_cons_ok (fsys : FS) (sha256hex : List Nat → String)
    (tmpl baseDir : String) (pre mt cap : List Char)
    (rest : List (List Char × List Char × List Char)) (acc : List (String × String))
    (canon : String) (bytes : List Nat) (fileText : List Char)
    (hex : fsys.pathExists (joinPath baseDir ⟨trimChars cap⟩) = true)
    (hcan : fsys.canonicalize (joinPath baseDir ⟨trimChars cap⟩) = some canon)
    (hrd : fsys.readFile canon = .ok bytes)
    (hdec : utf8Decode bytes = some fileText) :
    processMatches fsys sha256hex tmpl baseDir ((pre, mt, cap) :: rest) acc =
      match processMatches fsys sha256hex tmpl baseDir rest (insertS canon (sha256hex bytes) acc) with
      | .ok (out, m) =>
        .ok (pre ++ renderBlock ((pathExtension (joinPath baseDir ⟨trimChars cap⟩)).getD ⟨[]⟩) fileText ++ out, m)
      | .error e => .error e := by
  simp [processMatches, hex, hcan, hrd, hdec]

theorem scanFuel_fst_nil (f : Nat) (s : List Char) (h : (scanFuel f s).1 = []) :
    (scanFuel f s).2 = s := by
  cases f with
  | zero => rfl
  | succ n =>
    rcases hfm : findMatch s with _ | ⟨pre, mt, cap, rest⟩
    · simp [scanFuel, hfm]
    · simp [scanFuel, hfm] at h

theorem scan_no_match {s : List Char} (h : (scan s).1 = []) : (scan s).2 = s :=
  scanFuel_fst_nil s.length s h

/-- C1: for a template whose scan yields exactly one directive match that
references an existing UTF-8 file, `process_template` renders in place of
the directive a fenced block (three backticks, the resolved reference's
extension suffix or the empty string, a newline, the decoded content, a
newline, three backticks, a newline) and records exactly one hash-map
entry mapping the canonical path to the digest of the raw bytes. -/
theorem processTemplate_single_include
    (fsys : FS) (sha256hex : List Nat → String) (tmpl : String) (tb : List Nat)
    (content pre mt cap trailing : List Char) (baseDir canon : String)
    (bytes : List Nat) (fileText : List Char)
    (hread : fsys.readFile tmpl = .ok tb)
    (hutf : utf8Decode tb = some content)
    (hpar : pathParent tmpl = some baseDir)
    (hscan : scan content = ([(pre, mt, cap)], trailing))
    (hex : fsys.pathExists (joinPath baseDir ⟨trimChars cap⟩) = true)
    (hcan : fsys.canonicalize (joinPath baseDir ⟨trimChars cap⟩) = some canon)
    (hrd : fsys.readFile canon = .ok bytes)
    (hdec : utf8Decode bytes = some fileText) :
    processTemplate fsys sha256hex tmpl =
      .ok ⟨pre ++ renderBlock ((pathExtension (joinPath baseDir ⟨trimChars cap⟩)).getD ⟨[]⟩) fileText ++ trailing,
        [(canon, sha256hex bytes)]⟩ := by
  rw [processTemplate_unfold fsys sha256hex tmpl tb content baseDir hread hutf hpar]
  simp only [hscan]
  rw [processMatches_cons_ok fsys sha256hex tmpl baseDir pre mt cap [] [] canon bytes fileText
    hex hcan hrd hdec]
  simp [processMatches, insertS]

/-- Witness for C1: the spec's concrete scenario, template
`[[include: a.txt]]` with `a.txt` containing `hi`. -/
theorem processTemplate_single_include_witness :
    processTemplate fsC1 (fun _ => "H") "d/t.clamp" =
      .ok ⟨"```txt\nhi\n```\n".data, [("/r/a.txt", "H")]⟩ := by
  have h := processTemplate_single_include fsC1 (fun _ => "H") "d/t.clamp"
    (asciiEnc "[[include: a.txt]]") "[[include: a.txt]]".data [] "[[include: a.txt]]".data
    "a.txt".data [] "d" "/r/a.txt" (asciiEnc "hi") "hi".data
    (by decide) (by decide) (by decide) (by decide) (by decide) (by decide) (by decide) (by decide)
  exact h.trans (by rfl)

/-- C3: for a template in which the scanner finds no directive,
`process_template` returns the template content verbatim and an empty
current hash map. -/
theorem processTemplate_no_directives
    (fsys : FS) (sha256hex : List Nat → String) (tmpl : String) (tb : List Nat)
    (content : List Char) (baseDir : String)
    (hread : fsys.readFile tmpl = .ok tb)
    (hutf : utf8Decode tb = some content)
    (hpar : pathParent tmpl = some baseDir)
    (hscan : (scan content).1 = []) :
    processTemplate fsys sha256hex tmpl = .ok ⟨content, []⟩ := by
  rw [processTemplate_unfold fsys sha256hex tmpl tb content baseDir hread hutf hpar,
    hscan, scan_no_match hscan]
  simp [processMatches]

/-- Witness for C3: a concrete template with no directives is returned
verbatim with an empty map. -/
theorem processTemplate_no_directives_witness :
    processTemplate fsC3 (fun _ => "H") "d/plain.clamp" =
      .ok ⟨"no directives here\n".data, []⟩ :=
  processTemplate_no_directives fsC3 (fun _ => "H") "d/plain.clamp"
    (asciiEnc "no directives here\n") "no directives here\n".data "d"
    (by decide) (by decide) (by decide) (by decide)

/-- C4: when the first directive's resolved path (template directory
joined with the trimmed reference) does not exist, `process_template`
fails with the include-not-found error naming the resolved path, the
template path and the reference, and never returns a successful result
carrying a partial hash map. -/
theorem processTemplate_missing_include
    (fsys : FS) (sha256hex : List Nat → String) (tmpl : String) (tb : List Nat)
    (content pre mt cap : List Char) (baseDir : String)
    (ms : List (List Char × List Char × List Char))
    (hread : fsys.readFile tmpl = .ok tb)
    (hutf : utf8Decode tb = some content)
    (hpar : pathParent tmpl = some baseDir)
    (hscan : (scan content).1 = (pre, mt, cap) :: ms)
    (hex : fsys.pathExists (joinPath baseDir ⟨trimChars cap⟩) = false) :
    processTemplate fsys sha256hex tmpl =
      .error (.includeNotFound (joinPath baseDir ⟨trimChars cap⟩) tmpl ⟨trimChars cap⟩) ∧
    ∀ r, processTemplate fsys sha256hex tmpl ≠ .ok r := by
  have h1 : processTemplate fsys sha256hex tmpl =
      .error (.includeNotFound (joinPath baseDir ⟨trimChars cap⟩) tmpl ⟨trimChars cap⟩) := by
    rw [processTemplate_unfold fsys sha256hex tmpl tb content baseDir hread hutf hpar]
    simp only [hscan]
    simp [processMatches, hex]
  exact ⟨h1, fun r hr => by rw [h1] at hr; exact Except.noConfusion hr⟩

/-- Witness for C4: a concrete template referencing a missing file. -/
theorem processTemplate_missing_include_witness :
    processTemplate fsC4 (fun _ => "H") "d/m.clamp" =
      .error (.includeNotFound "d/missing.txt" "d/m.clamp" "missing.txt") ∧
    ∀ r, processTemplate fsC4 (fun _ => "H") "d/m.clamp" ≠ .ok r := by
  have h := processTemplate_missing_include fsC4 (fun _ => "H") "d/m.clamp"
    (asciiEnc "x [[include: missing.txt]] y") "x [[include: missing.txt]] y".data
    "x ".data "[[include: missing.txt]]".data "missing.txt".data "d" []
    (by decide) (by decide) (by decide) (by decide) (by decide)
  exact ⟨h.1.trans (by rfl), h.2⟩

/-- C9: a directive whose reference trims to the empty string resolves to
the template's containing directory (the join with the empty reference is
the directory itself, up to a trailing separator); when that directory
exists and canonicalizes, `process_template` does not fail with the
include-not-found error but with the read error on the canonicalized
directory path, as reading a directory as a file fails. -/
theorem processTemplate_empty_ref
    (fsys : FS) (sha256hex : List Nat → String) (tmpl : String) (tb : List Nat)
    (content pre mt cap : List Char) (baseDir canonDir : String)
    (ms : List (List Char × List Char × List Char))
    (hread : fsys.readFile tmpl = .ok tb)
    (hutf : utf8Decode tb = some content)
    (hpar : pathParent tmpl = some baseDir)
    (hscan : (scan content).1 = (pre, mt, cap) :: ms)
    (hcap : trimChars cap = [])
    (hex : fsys.pathExists (joinPath baseDir ⟨[]⟩) = true)
    (hcan : fsys.canonicalize (joinPath baseDir ⟨[]⟩) = some canonDir)
    (hrd : fsys.readFile canonDir = .err) :
    processTemplate fsys sha256hex tmpl = .error (.readErr canonDir) ∧
    (∀ a b c, processTemplate fsys sha256hex tmpl ≠ .error (.includeNotFound a b c)) ∧
    (baseDir.data ≠ [] → stripTrail (joinPath baseDir ⟨[]⟩).data = stripTrail baseDir.data) := by
  have h1 : processTemplate fsys sha256hex tmpl = .error (.readErr canonDir) := by
    rw [processTemplate_unfold fsys sha256hex tmpl tb content baseDir hread hutf hpar]
    simp only [hscan]
    simp [processMatches, hcap, hex, hcan, hrd]
  refine ⟨h1, fun a b c hr => by rw [h1] at hr; simp at hr, ?_⟩
  intro hne
  by_cases hlast : baseDir.data.getLast? = some '/'
  · simp [joinPath, hlast, hne]
  · simp [joinPath, hlast, hne, stripTrail, List.dropWhile_cons]

/-- Witness for C9: template `[[include:]]` whose base directory exists
and canonicalizes but cannot be read as a file. -/
theorem processTemplate_empty_ref_witness :
    processTemplate fsC9 (fun _ => "H") "d/e.clamp" = .error (.readErr "/r/d") ∧
    (∀ a b c, processTemplate fsC9 (fun _ => "H") "d/e.clamp" ≠ .error (.includeNotFound a b c)) ∧
    (("d" : String).data ≠ [] → stripTrail (joinPath "d" ⟨[]⟩).data = stripTrail ("d" : String).data) :=
  processTemplate_empty_ref fsC9 (fun _ => "H") "d/e.clamp" (asciiEnc "[[include:]]")
    "[[include:]]".data [] "[[include:]]".data [] "d" "/r/d" []
    (by decide) (by decide) (by decide) (by decide) (by decide) (by decide) (by decide) (by decide)

/-- C10: a directive whose reference is an absolute path is resolved to
the reference itself: the join with the template's directory returns the
absolute right operand unchanged, so include resolution ignores the
template's directory, as witnessed by the include-not-found error naming
the bare reference as the resolved path for any base directory. -/
theorem processTemplate_absolute_include :
    (∀ (baseDir q : String), q.data.head? = some '/' → joinPath baseDir q = q) ∧
    (∀ (fsys : FS) (sha256hex : List Nat → String) (tmpl : String) (tb : List Nat)
      (content pre mt cap : List Char) (baseDir : String)
      (ms : List (List Char × List Char × List Char)),
      fsys.readFile tmpl = .ok tb → utf8Decode tb = some content →
      pathParent tmpl = some baseDir → (scan content).1 = (pre, mt, cap) :: ms →
      (⟨trimChars cap⟩ : String).data.head? = some '/' →
      fsys.pathExists ⟨trimChars cap⟩ = false →
      processTemplate fsys sha256hex tmpl =
        .error (.includeNotFound ⟨trimChars cap⟩ tmpl ⟨trimChars cap⟩)) := by
  constructor
  · intro baseDir q hq
    simp [joinPath, hq]
  · intro fsys sha256hex tmpl tb content pre mt cap baseDir ms hread hutf hpar hscan habs hex
    have hj : joinPath baseDir ⟨trimChars cap⟩ = ⟨trimChars cap⟩ := by
      simp [joinPath, habs]
    rw [processTemplate_unfold fsys sha256hex tmpl tb content baseDir hread hutf hpar]
    simp only [hscan]
    simp [processMatches, hj, hex]

/-- Witness for C10: an absolute reference `/etc/x` resolved without
regard to the template's directory `d`. -/
theorem processTemplate_absolute_include_witness :
    joinPath "d" "/etc/x" = "/etc/x" ∧
    processTemplate fsC10 (fun _ => "H") "d/abs.clamp" =
      .error (.includeNotFound "/etc/x" "d/abs.clamp" "/etc/x") := by
  constructor
  · exact processTemplate_absolute_include.1 "d" "/etc/x" (by decide)
  · have h := processTemplate_absolute_include.2 fsC10 (fun _ => "H") "d/abs.clamp"
      (asciiEnc "[[include: /etc/x]]") "[[include: /etc/x]]".data []
      "[[include: /etc/x]]".data "/etc/x".data "d" []
      (by decide) (by decide) (by decide) (by decide) (by decide) (by decide)
    exact h.trans (by rfl)

theorem processMatches_ok_sorted (fsys : FS) (sha256hex : List Nat → String)
    (tmpl baseDir : String) :
    ∀ (ms : List (List Char × List Char × List Char)) (acc : List (String × String))
      (out : List Char) (m : List (String × String)), SortedM acc →
      processMatches fsys sha256hex tmpl baseDir ms acc = .ok (out, m) → SortedM m := by
  intro ms
  induction ms with
  | nil =>
    intro acc out m hs h
    simp [processMatches] at h
    rw [← h.2]
    exact hs
  | cons e t ih =>
    intro acc out m hs h
    obtain ⟨pre, mt, cap⟩ := e
    cases hex : fsys.pathExists (joinPath baseDir ⟨trimChars cap⟩) with
    | false => simp [processMatches, hex] at h
    | true =>
      cases hcan : fsys.canonicalize (joinPath baseDir ⟨trimChars cap⟩) with
      | none => simp [processMatches, hex, hcan] at h
      | some canon =>
        cases hrd : fsys.readFile canon with
        | notFound => simp [processMatches, hex, hcan, hrd] at h
        | err => simp [processMatches, hex, hcan, hrd] at h
        | ok bytes =>
          cases hdec : utf8Decode bytes with
          | none => simp [processMatches, hex, hcan, hrd, hdec] at h
          | some fileText =>
            cases hrec : processMatches fsys sha256hex tmpl baseDir t
                (insertS canon (sha256hex bytes) acc) with
            | error e' => simp [processMatches, hex, hcan, hrd, hdec, hrec] at h
            | ok om =>
              obtain ⟨out', m'⟩ := om
              simp [processMatches, hex, hcan, hrd, hdec, hrec] at h
              rw [← h.2]
              exact ih _ _ _ (sortedM_insertS _ _ hs) hrec

theorem processTemplate_ok_sortedAux (fsys : FS) (sha256hex : List Nat → String)
    (tmpl : String) (r : ProcResult)
    (h : processTemplate fsys sha256hex tmpl = .ok r) : SortedM r.current_hashes := by
  unfold processTemplate at h
  cases hrf : fsys.readFile tmpl with
  | notFound => rw [hrf] at h; exact Except.noConfusion h
  | err => rw [hrf] at h; exact Except.noConfusion h
  | ok tb =>
    simp only [hrf] at h
    cases hdec : utf8Decode tb with
    | none => rw [hdec] at h; exact Except.noConfusion h
    | some content =>
      simp only [hdec] at h
      cases hp : pathParent tmpl with
      | none => rw [hp] at h; exact Except.noConfusion h
      | some baseDir =>
        simp only [hp] at h
        cases hpm : processMatches fsys sha256hex tmpl baseDir (scan content).1 [] with
        | error e => rw [hpm] at h; exact Except.noConfusion h
        | ok om =>
          obtain ⟨out, m⟩ := om
          rw [hpm] at h
          have hr : (⟨out ++ (scan content).2, m⟩ : ProcResult) = r := by
            exact Except.ok.inj h
          rw [← hr]
          exact processMatches_ok_sorted fsys sha256hex tmpl baseDir _ _ _ _
            List.Pairwise.nil hpm

/-- C7: the current hash map produced by `process_template` is strictly
sorted by path (keys unique); re-insertion under the same key is
last-write-wins in the map model; and a run whose two directives resolve
to the same canonical path produces exactly one map entry holding the
digest computed at the last (second) directive. -/
theorem processTemplate_map_invariant :
    (∀ (fsys : FS) (sha256hex : List Nat → String) (tmpl : String) (r : ProcResult),
      processTemplate fsys sha256hex tmpl = .ok r → SortedM r.current_hashes) ∧
    (∀ (k v1 v2 : String) (m : List (String × String)),
      findVal (insertS k v2 (insertS k v1 m)) k = some v2) ∧
    (∀ (fsys : FS) (sha256hex : List Nat → String) (tmpl : String) (tb : List Nat)
      (content pre1 mt1 cap1 pre2 mt2 cap2 trailing : List Char) (baseDir canon : String)
      (bytes : List Nat) (fileText : List Char),
      fsys.readFile tmpl = .ok tb → utf8Decode tb = some content →
      pathParent tmpl = some baseDir →
      scan content = ([(pre1, mt1, cap1), (pre2, mt2, cap2)], trailing) →
      fsys.pathExists (joinPath baseDir ⟨trimChars cap1⟩) = true →
      fsys.canonicalize (joinPath baseDir ⟨trimChars cap1⟩) = some canon →
      fsys.pathExists (joinPath baseDir ⟨trimChars cap2⟩) = true →
      fsys.canonicalize (joinPath baseDir ⟨trimChars cap2⟩) = some canon →
      fsys.readFile canon = .ok bytes →
      utf8Decode bytes = some fileText →
      ∀ r, processTemplate fsys sha256hex tmpl = .ok r →
        r.current_hashes = [(canon, sha256hex bytes)]) := by
  refine ⟨processTemplate_ok_sortedAux, ?_, ?_⟩
  · intro k v1 v2 m
    exact findVal_insertS_self k v2 (insertS k v1 m)
  · intro fsys sha256hex tmpl tb content pre1 mt1 cap1 pre2 mt2 cap2 trailing baseDir canon
      bytes fileText hread hutf hpar hscan hex1 hcan1 hex2 hcan2 hrd hdec r hr
    rw [processTemplate_unfold fsys sha256hex tmpl tb content baseDir hread hutf hpar] at hr
    simp only [hscan] at hr
    rw [processMatches_cons_ok fsys sha256hex tmpl baseDir pre1 mt1 cap1 _ _ canon bytes
      fileText hex1 hcan1 hrd hdec,
      processMatches_cons_ok fsys sha256hex tmpl baseDir pre2 mt2 cap2 _ _ canon bytes
      fileText hex2 hcan2 hrd hdec] at hr
    simp only [processMatches] at hr
    have hr2 := Except.ok.inj hr
    rw [← hr2]
    simp [insertS, strLt_irrefl]

/-- Witness for C7: two directives with distinct references `a` and `b`
canonicalizing to the same file `/r/f`; the run succeeds with a sorted
single-entry map, and the raw map double insert keeps the last value. -/
theorem processTemplate_map_invariant_witness :
    SortedM (ProcResult.current_hashes ⟨"```\nz\n```\n```\nz\n```\n".data, [("/r/f", "H")]⟩) ∧
    findVal (insertS "k" "2" (insertS "k" "1" [])) "k" = some "2" ∧
    ProcResult.current_hashes ⟨"```\nz\n```\n```\nz\n```\n".data, [("/r/f", "H")]⟩ =
      [("/r/f", "H")] :=
  ⟨processTemplate_map_invariant.1 fsC7 (fun _ => "H") "d/two.clamp"
      ⟨"```\nz\n```\n```\nz\n```\n".data, [("/r/f", "H")]⟩ (by rfl),
   processTemplate_map_invariant.2.1 "k" "1" "2" [],
   processTemplate_map_invariant.2.2 fsC7 (fun _ => "H") "d/two.clamp"
      (asciiEnc "[[include: a]][[include: b]]") "[[include: a]][[include: b]]".data
      [] "[[include: a]]".data "a".data [] "[[include: b]]".data "b".data []
      "d" "/r/f" (asciiEnc "z") "z".data
      (by decide) (by decide) (by decide) (by decide) (by decide) (by decide) (by decide)
      (by decide) (by decide) (by decide)
      ⟨"```\nz\n```\n```\nz\n```\n".data, [("/r/f", "H")]⟩ (by rfl)⟩

/-! Path decomposition lemmas for the lockfile derivation. -/

theorem dropWhile_head_not {α : Type} {q : α → Bool} :
    ∀ (l : List α) (c : α) (cs : List α), l.dropWhile q = c :: cs → q c = false := by
  intro l
  induction l with
  | nil => intro c cs h; cases h
  | cons x xs ih =>
    intro c cs h
    by_cases hx : q x
    · rw [List.dropWhile_cons, if_pos hx] at h
      exact ih c cs h
    · rw [List.dropWhile_cons, if_neg hx] at h
      rw [← (List.cons.inj h).1]
      exact Bool.eq_false_iff.mpr hx

theorem revSplit {α : Type} (q : α → Bool) (l : List α) :
    l = (l.reverse.dropWhile q).reverse ++ (l.reverse.takeWhile q).reverse := by
  conv_lhs => rw [← List.reverse_reverse l, ← List.takeWhile_append_dropWhile q l.reverse]
  rw [List.reverse_append]

theorem take_sub_append {α : Type} (a b : List α) :
    (a ++ b).take ((a ++ b).length - b.length) = a := by
  have h1 : (a ++ b).length - b.length = a.length := by simp
  rw [h1, List.take_left]

theorem fileNamePart_decomp (l : List Char) :
    l.take (l.length - (fileNamePart l).length) ++ fileNamePart l = l := by
  have hs : l = (l.reverse.dropWhile (fun c => !(c == '/'))).reverse ++ fileNamePart l :=
    revSplit _ l
  set fn := fileNamePart l with hfn
  set a := (l.reverse.dropWhile (fun c => !(c == '/'))).reverse with ha
  rw [hs, take_sub_append]

theorem extSplit_decomp (fn st ex : List Char) (h : extSplit fn = some (st, ex)) :
    fn = st ++ '.' :: ex := by
  unfold extSplit at h
  set tw := fn.reverse.takeWhile (fun c => !(c == '.')) with htw
  by_cases hc : tw.length + 1 < fn.length
  · rw [if_pos hc] at h
    obtain ⟨hst, hex⟩ := Prod.mk.inj (Option.some.inj h)
    rcases hd : fn.reverse.dropWhile (fun c => !(c == '.')) with _ | ⟨c0, rest2⟩
    · exfalso
      have hs := revSplit (fun c => !(c == '.')) fn
      rw [hd] at hs
      simp only [List.reverse_nil, List.nil_append] at hs
      rw [← htw] at hs
      have hlen := congrArg List.length hs
      rw [List.length_reverse] at hlen
      omega
    · have hc0 : c0 = '.' := by simpa using dropWhile_head_not _ _ _ hd
      subst hc0
      have hs := revSplit (fun c => !(c == '.')) fn
      rw [hd, List.reverse_cons, List.append_assoc, List.singleton_append] at hs
      rw [← htw] at hs
      have hlen : fn.length - tw.length - 1 = rest2.reverse.length := by
        rw [hs]
        simp only [List.length_append, List.length_reverse, List.length_cons]
        omega
      rw [← hst, ← hex, hlen, hs, List.take_left]
  · rw [if_neg hc] at h
    cases h

/-- C5: for a template path with extension `e`, `get_lockfile_path`
returns the path with its extension replaced by `e.lock`; with no
extension it returns the path with extension `lock`; in both cases, for a
path with a file name and no trailing separator, the result is the
template path with `.lock` appended (so `doc.clamp` becomes
`doc.clamp.lock`). -/
theorem get_lockfile_path_spec (p : String) :
    (∀ e, pathExtension p = some e →
      get_lockfile_path p = withExtension p ⟨e.data ++ ".lock".data⟩) ∧
    (pathExtension p = none → get_lockfile_path p = withExtension p "lock") ∧
    (stripTrail p.data = p.data → ∀ fn, pathFileName p = some fn →
      get_lockfile_path p = ⟨p.data ++ ".lock".data⟩) := by
  refine ⟨?_, ?_, ?_⟩
  · intro e he
    simp [get_lockfile_path, he]
  · intro he
    simp [get_lockfile_path, he]
  · intro hst fn hfn
    have hfn0 := hfn
    unfold pathFileName at hfn0
    by_cases hcond : fileNamePart (stripTrail p.data) = [] ∨
        fileNamePart (stripTrail p.data) = ['.'] ∨
        fileNamePart (stripTrail p.data) = ['.', '.']
    · rw [if_pos hcond] at hfn0
      cases hfn0
    · rw [if_neg hcond] at hfn0
      have hfn' : fn = ⟨fileNamePart (stripTrail p.data)⟩ := (Option.some.inj hfn0).symm
      have hfd : fn.data = fileNamePart p.data := by rw [hfn']; rw [hst]
      unfold get_lockfile_path
      rcases he : pathExtension p with _ | ex
      · have hes : extSplit fn.data = none := by
          unfold pathExtension at he
          simp only [hfn] at he
          rcases hes' : extSplit fn.data with _ | ⟨st, ex'⟩
          · rfl
          · rw [hes'] at he
            simp at he
        unfold withExtension
        simp only [hfn]
        have hlock : ("lock" : String).data ≠ [] := by decide
        rw [if_neg hlock]
        simp only [fileStemOf, hes]
        unfold replaceFileName
        rw [hst, hfd]
        have hgoal : p.data.take (p.data.length - (fileNamePart p.data).length) ++
            (fileNamePart p.data ++ '.' :: ("lock" : String).data) = p.data ++ ".lock".data := by
          rw [← List.append_assoc, fileNamePart_decomp]
        exact congrArg String.mk hgoal
      · have hes : ∃ st, extSplit fn.data = some (st, ex.data) := by
          unfold pathExtension at he
          simp only [hfn] at he
          rcases hes' : extSplit fn.data with _ | ⟨st, ex'⟩
          · rw [hes'] at he
            simp at he
          · rw [hes'] at he
            simp at he
            exact ⟨st, by rw [← he]⟩
        obtain ⟨st, hes⟩ := hes
        have hdecomp := extSplit_decomp fn.data st ex.data hes
        unfold withExtension
        simp only [hfn]
        have hne2 : (⟨ex.data ++ ".lock".data⟩ : String).data ≠ [] := by simp
        rw [if_neg hne2]
        simp only [fileStemOf, hes]
        unfold replaceFileName
        rw [hst]
        have hfix : st ++ '.' :: (ex.data ++ ['.', 'l', 'o', 'c', 'k']) =
            fileNamePart p.data ++ ['.', 'l', 'o', 'c', 'k'] := by
          rw [← hfd, hdecomp]
          simp
        rw [hfix, ← List.append_assoc, fileNamePart_decomp]

/-- Witness for C5: `doc.clamp` derives `doc.clamp.lock`, and an
extensionless path `problem` derives `problem.lock`. -/
theorem get_lockfile_path_spec_witness :
    get_lockfile_path "doc.clamp" = "doc.clamp.lock" ∧
    get_lockfile_path "problem" = "problem.lock" :=
  ⟨((get_lockfile_path_spec "doc.clamp").2.2 (by decide) "doc.clamp" (by decide)).trans (by rfl),
   ((get_lockfile_path_spec "problem").2.2 (by decide) "problem" (by decide)).trans (by rfl)⟩

/-! List lemmas for the scanner decomposition. -/

theorem takeWhile_append_all {α : Type} (q : α → Bool) (a b : List α)
    (h : ∀ c ∈ a, q c = true) : (a ++ b).takeWhile q = a ++ b.takeWhile q := by
  induction a with
  | nil => simp
  | cons x t ih =>
    have hx : q x = true := h x (List.mem_cons_self _ _)
    simp only [List.cons_append, List.takeWhile_cons, hx, if_true]
    rw [ih (fun c hc => h c (List.mem_cons_of_mem _ hc))]

theorem dropWhile_append_all {α : Type} (q : α → Bool) (a b : List α)
    (h : ∀ c ∈ a, q c = true) : (a ++ b).dropWhile q = b.dropWhile q := by
  induction a with
  | nil => simp
  | cons x t ih =>
    have hx : q x = true := h x (List.mem_cons_self _ _)
    simp only [List.cons_append, List.dropWhile_cons, hx, if_true]
    exact ih (fun c hc => h c (List.mem_cons_of_mem _ hc))

theorem takeWhile_head_false {α : Type} (q : α → Bool) (l : List α)
    (h : ∀ c, l.head? = some c → q c = false) : l.takeWhile q = [] := by
  cases l with
  | nil => rfl
  | cons x t =>
    have hx : q x = false := h x rfl
    simp [List.takeWhile_cons, hx]

theorem dropWhile_head_false {α : Type} (q : α → Bool) (l : List α)
    (h : ∀ c, l.head? = some c → q c = false) : l.dropWhile q = l := by
  cases l with
  | nil => rfl
  | cons x t =>
    have hx : q x = false := h x rfl
    simp [List.dropWhile_cons, hx]

theorem noRB_nil : noRB [] := by
  intro a b h
  have hl := congrArg List.length h
  simp only [List.length_nil, List.length_append, List.length_cons] at hl
  omega

theorem noRB_cons {c : Char} {l : List Char} (hc : c ≠ ']') (h : noRB l) : noRB (c :: l) := by
  intro a b hab
  cases a with
  | nil =>
    simp at hab
    exact hc hab.1
  | cons x t =>
    rw [List.cons_append] at hab
    exact h t b (List.cons.inj hab).2

theorem noRB_all_append {w t : List Char} (hw : ∀ c ∈ w, c ≠ ']') (h : noRB t) :
    noRB (w ++ t) := by
  induction w with
  | nil => simpa using h
  | cons x xs ih =>
    rw [List.cons_append]
    exact noRB_cons (hw x (List.mem_cons_self _ _))
      (ih (fun c hc => hw c (List.mem_cons_of_mem _ hc)))

theorem splitRB_some : ∀ (k a b : List Char), splitRB k = some (a, b) →
    k = a ++ ']' :: ']' :: b ∧ noRB (a ++ [']']) := by
  intro k
  induction k with
  | nil => intro a b h; cases h
  | cons c rest ih =>
    intro a b h
    by_cases hc : c = ']' ∧ rest.head? = some ']'
    · rw [splitRB, if_pos hc] at h
      obtain ⟨ha, hb⟩ := Prod.mk.inj (Option.some.inj h)
      obtain ⟨hc1, hc2⟩ := hc
      subst hc1
      rcases rest with _ | ⟨r0, rest2⟩
      · cases hc2
      · have hr0 : r0 = ']' := by simpa using hc2
        subst hr0
        constructor
        · simp [← ha, ← hb]
        · simp only [← ha, List.nil_append]
          intro x y hxy
          cases x with
          | nil => simp at hxy
          | cons x0 xt =>
            have hl := congrArg List.length hxy
            simp only [List.length_cons, List.length_append, List.length_nil] at hl
            omega
    · rw [splitRB, if_neg hc] at h
      rcases hs : splitRB rest with _ | ⟨a', b'⟩
      · rw [hs] at h
        cases h
      · rw [hs] at h
        obtain ⟨hd, hnr⟩ := ih a' b' hs
        obtain ⟨ha, hb⟩ := Prod.mk.inj (Option.some.inj h)
        constructor
        · rw [← ha, ← hb, List.cons_append, ← hd]
        · rw [← ha, List.cons_append]
          intro x y
          intro hxy
          cases x with
          | nil =>
            simp only [List.nil_append] at hxy
            have hc1 := (List.cons.inj hxy).1
            have h2 := (List.cons.inj hxy).2
            apply hc
            refine ⟨hc1, ?_⟩
            rcases a' with _ | ⟨a0, at'⟩
            · rw [hd]
              rfl
            · have ha0 : a0 = ']' := (List.cons.inj h2).1
              rw [hd, ha0]
              rfl
          | cons x0 xt =>
            rw [List.cons_append] at hxy
            exact hnr xt y (List.cons.inj hxy).2

theorem rstrip_decomp (l : List Char) :
    l = rstrip l ++ (l.reverse.takeWhile isWs).reverse ∧
    allWsL ((l.reverse.takeWhile isWs).reverse) := by
  constructor
  · exact revSplit isWs l
  · intro c hc
    rw [List.mem_reverse] at hc
    exact List.mem_takeWhile_imp hc

theorem rstrip_getLast (l : List Char) (c : Char) (h : (rstrip l).getLast? = some c) :
    isWs c = false := by
  rw [rstrip, List.getLast?_reverse] at h
  rcases hd : l.reverse.dropWhile isWs with _ | ⟨x, xs⟩
  · rw [hd] at h
    cases h
  · rw [hd] at h
    have hx := dropWhile_head_not _ _ _ hd
    have hxc : x = c := Option.some.inj h
    rw [← hxc]
    exact hx

theorem trim_eq_self (l : List Char)
    (hhead : ∀ c, l.head? = some c → isWs c = false)
    (hlast : ∀ c, l.getLast? = some c → isWs c = false) : trimChars l = l := by
  rw [trimChars, dropWhile_head_false isWs l hhead, rstrip, dropWhile_head_false]
  · exact List.reverse_reverse l
  · intro c hc
    rw [List.head?_reverse] at hc
    exact hlast c hc

theorem rstrip_append_ws (l w : List Char) (hw : allWsL w)
    (hlast : ∀ c, l.getLast? = some c → isWs c = false) : rstrip (l ++ w) = l := by
  rw [rstrip, List.reverse_append,
    dropWhile_append_all isWs _ _ (fun c hc => hw c (List.mem_reverse.mp hc)),
    dropWhile_head_false isWs _ (fun c hc => hlast c (by rwa [List.head?_reverse] at hc)),
    List.reverse_reverse]

theorem ws_ne_rb {c : Char} (h : isWs c = true) : c ≠ ']' := by
  intro hc
  subst hc
  exact absurd h (by decide)

theorem tryDirective_some (after mtt cap rest : List Char)
    (h : tryDirective after = some (mtt, cap, rest)) :
    after = mtt ++ rest ∧ ∃ ws1 ws2, mtt = ws1 ++ cap ++ ws2 ++ [']', ']'] ∧
      allWsL ws1 ∧ allWsL ws2 ∧ noRB (ws1 ++ cap ++ ws2 ++ [']']) ∧
      trimChars cap = cap ∧ '\n' ∉ cap := by
  unfold tryDirective at h
  rcases hsp : splitRB (after.dropWhile isWs) with _ | ⟨between, rest'⟩
  · rw [hsp] at h
    cases h
  · simp only [hsp] at h
    by_cases hnl : (rstrip between).contains '\n'
    · rw [if_pos hnl] at h
      cases h
    · rw [if_neg hnl] at h
      simp only [Option.some.injEq, Prod.mk.injEq] at h
      obtain ⟨hmtt, hcap, hrest⟩ := h
      subst hmtt
      subst hcap
      subst hrest
      obtain ⟨hks, hnr⟩ := splitRB_some _ _ _ hsp
      obtain ⟨hbd, hws2⟩ := rstrip_decomp between
      have hws1 : allWsL (after.takeWhile isWs) := fun c hc => List.mem_takeWhile_imp hc
      refine ⟨?_, (after.takeWhile isWs), ((between.reverse.takeWhile isWs).reverse), ?_, hws1, hws2, ?_, ?_, ?_⟩
      · conv_lhs => rw [← List.takeWhile_append_dropWhile isWs after]
        rw [hks]
        simp [List.append_assoc]
      · conv_lhs => rw [hbd]
        simp [List.append_assoc]
      · have hnr2 : noRB (rstrip between ++ (between.reverse.takeWhile isWs).reverse ++ [']']) := by
          rw [← hbd]
          exact hnr
        have hw1 : ∀ c ∈ after.takeWhile isWs, c ≠ ']' := fun c hc => ws_ne_rb (hws1 c hc)
        have := noRB_all_append hw1 hnr2
        simpa [List.append_assoc] using this
      · rcases hcap0 : rstrip between with _ | ⟨c0, ct⟩
        · rfl
        · rw [hcap0] at hbd
          have hh : (after.dropWhile isWs).head? = some c0 := by
            rw [hks, hbd]
            rfl
          have hhead0 : isWs c0 = false := by
            rcases hdw : after.dropWhile isWs with _ | ⟨x, xs⟩
            · rw [hdw] at hh
              cases hh
            · rw [hdw] at hh
              exact (Option.some.inj hh) ▸ dropWhile_head_not _ _ _ hdw
          refine trim_eq_self _ ?_ ?_
          · intro c hc
            exact (Option.some.inj hc) ▸ hhead0
          · intro c hc
            rw [← hcap0] at hc
            exact rstrip_getLast between c hc
      · intro hmem
        apply hnl
        exact List.elem_eq_true_of_mem hmem

theorem findMatch_some : ∀ (s pre mt cap rest : List Char),
    findMatch s = some (pre, mt, cap, rest) →
    s = pre ++ mt ++ rest ∧ MatchShape mt cap := by
  intro s
  induction s with
  | nil => intro pre mt cap rest h; cases h
  | cons c cs ih =>
    intro pre mt cap rest h
    by_cases hp : incTok.isPrefixOf (c :: cs) = true
    · rcases htd : tryDirective ((c :: cs).drop incTok.length) with _ | ⟨mtt, cap', rest'⟩
      · rcases hfm : findMatch cs with _ | ⟨pre', mt', cap'', rest''⟩
        · simp [findMatch, hp, htd, hfm] at h
        · obtain ⟨hdec, hshape⟩ := ih pre' mt' cap'' rest'' hfm
          simp only [findMatch, hp, if_true, htd, hfm] at h
          simp only [Option.some.injEq, Prod.mk.injEq] at h
          obtain ⟨h1, h2, h3, h4⟩ := h
          subst h1
          subst h2
          subst h3
          subst h4
          constructor
          · simp [hdec, List.append_assoc]
          · exact hshape
      · simp only [findMatch, hp, if_true, htd] at h
        simp only [Option.some.injEq, Prod.mk.injEq] at h
        obtain ⟨h1, h2, h3, h4⟩ := h
        subst h1
        subst h2
        subst h3
        subst h4
        obtain ⟨t, ht⟩ := List.isPrefixOf_iff_prefix.mp hp
        have hdrop : (c :: cs).drop incTok.length = t := by
          rw [← ht]
          exact List.drop_left _ _
        rw [hdrop] at htd
        obtain ⟨hta, ws1, ws2, hmt, hws1, hws2, hnr, htrim, hnl⟩ :=
          tryDirective_some t mtt cap' rest' htd
        constructor
        · rw [← ht, hta]
          simp [List.append_assoc]
        · refine ⟨ws1, ws2, ?_, hws1, hws2, hnr, htrim, hnl⟩
          rw [hmt]
          simp [List.append_assoc]
    · rcases hfm : findMatch cs with _ | ⟨pre', mt', cap'', rest''⟩
      · simp [findMatch, hp, hfm] at h
      · obtain ⟨hdec, hshape⟩ := ih pre' mt' cap'' rest'' hfm
        rw [Bool.not_eq_true] at hp
        simp only [findMatch, hp, Bool.false_eq_true, if_false, hfm] at h
        simp only [Option.some.injEq, Prod.mk.injEq] at h
        obtain ⟨h1, h2, h3, h4⟩ := h
        subst h1
        subst h2
        subst h3
        subst h4
        constructor
        · simp [hdec, List.append_assoc]
        · exact hshape

theorem findMatch_rest_lt (s pre mt cap rest : List Char)
    (h : findMatch s = some (pre, mt, cap, rest)) : rest.length < s.length := by
  obtain ⟨hdec, hshape⟩ := findMatch_some s pre mt cap rest h
  obtain ⟨ws1, ws2, hmt, _⟩ := hshape
  have hmtlen : 0 < mt.length := by
    rw [hmt]
    simp [incTok]
  have := congrArg List.length hdec
  simp only [List.length_append] at this
  omega

theorem scanRecon_cons (x : List Char × List Char × List Char)
    (ms : List (List Char × List Char × List Char)) (tr : List Char) :
    scanRecon (x :: ms) tr = x.1 ++ x.2.1 ++ scanRecon ms tr := rfl

theorem scanFuel_nil : ∀ f, scanFuel f [] = ([], []) := by
  intro f
  cases f with
  | zero => rfl
  | succ n => rfl

theorem scanFuel_spec : ∀ (f : Nat) (s : List Char), s.length ≤ f →
    scanRecon (scanFuel f s).1 (scanFuel f s).2 = s ∧
    (∀ pre mt cap, (pre, mt, cap) ∈ (scanFuel f s).1 → MatchShape mt cap) := by
  intro f
  induction f with
  | zero =>
    intro s hle
    constructor
    · rfl
    · intro pre mt cap hmem
      simp [scanFuel] at hmem
  | succ n ih =>
    intro s hle
    rcases hfm : findMatch s with _ | ⟨pre, mt, cap, rest⟩
    · constructor
      · simp [scanFuel, hfm, scanRecon]
      · intro pre' mt' cap' hmem
        simp [scanFuel, hfm] at hmem
    · obtain ⟨hdec, hshape⟩ := findMatch_some s pre mt cap rest hfm
      have hlt : rest.length < s.length := findMatch_rest_lt s pre mt cap rest hfm
      obtain ⟨hrec, hmem⟩ := ih rest (by omega)
      constructor
      · simp only [scanFuel, hfm]
        rw [scanRecon_cons, hrec]
        exact hdec.symm
      · intro pre' mt' cap' hmm'
        simp only [scanFuel, hfm, List.mem_cons] at hmm'
        rcases hmm' with h1 | h2
        · simp only [Prod.mk.injEq] at h1
          obtain ⟨h1a, h1b, h1c⟩ := h1
          subst h1b
          subst h1c
          exact hshape
        · exact hmem pre' mt' cap' h2

theorem findMatch_incTok (tail' mtt cap rest : List Char)
    (h : tryDirective tail' = some (mtt, cap, rest)) :
    findMatch (incTok ++ tail') = some ([], incTok ++ mtt, cap, rest) := by
  have hp : incTok.isPrefixOf
      ('[' :: '[' :: 'i' :: 'n' :: 'c' :: 'l' :: 'u' :: 'd' :: 'e' :: ':' :: tail') = true := by
    rw [List.isPrefixOf_iff_prefix]
    exact ⟨tail', rfl⟩
  have hdrop : ('[' :: '[' :: 'i' :: 'n' :: 'c' :: 'l' :: 'u' :: 'd' :: 'e' :: ':' ::
      tail').drop incTok.length = tail' := rfl
  show findMatch ('[' :: '[' :: 'i' :: 'n' :: 'c' :: 'l' :: 'u' :: 'd' :: 'e' :: ':' :: tail') =
    some ([], incTok ++ mtt, cap, rest)
  simp only [findMatch, hp, if_true, hdrop, h]

theorem head?_append_left {α : Type} (a b : List α) (h : a ≠ []) :
    (a ++ b).head? = a.head? := by
  cases a with
  | nil => exact absurd rfl h
  | cons x t => rfl

theorem splitRB_first : ∀ (a t : List Char), (∀ c ∈ a, c ≠ ']') →
    splitRB (a ++ ']' :: ']' :: t) = some (a, t) := by
  intro a
  induction a with
  | nil =>
    intro t _
    rw [List.nil_append, splitRB, if_pos ⟨rfl, rfl⟩]
    rfl
  | cons x xs ih =>
    intro t hx
    rw [List.cons_append, splitRB, if_neg, ih t (fun c hc => hx c (List.mem_cons_of_mem _ hc))]
    intro hcc
    rcases xs with _ | ⟨x1, xt⟩
    · exact hx x (List.mem_cons_self _ _) hcc.1
    · exact hx x (List.mem_cons_self _ _) hcc.1

theorem scan_tolerance (ws1 ws2 ref : List Char)
    (hws1 : allWsL ws1) (hws2 : allWsL ws2) (href : ref ≠ [])
    (hch : ∀ c ∈ ref, c ≠ ']' ∧ c ≠ '\n')
    (hhead : ∀ c, ref.head? = some c → isWs c = false)
    (hlast : ∀ c, ref.getLast? = some c → isWs c = false) :
    scan (incTok ++ (ws1 ++ (ref ++ (ws2 ++ [']', ']'])))) =
      ([([], incTok ++ (ws1 ++ (ref ++ (ws2 ++ [']', ']']))), ref)], []) := by
  have hheadX : ∀ c, (ref ++ (ws2 ++ [']', ']'])).head? = some c → isWs c = false := by
    intro c hc
    rw [head?_append_left _ _ href] at hc
    exact hhead c hc
  have htake : (ws1 ++ (ref ++ (ws2 ++ [']', ']']))).takeWhile isWs = ws1 := by
    rw [takeWhile_append_all isWs _ _ hws1, takeWhile_head_false isWs _ hheadX,
      List.append_nil]
  have hdropW : (ws1 ++ (ref ++ (ws2 ++ [']', ']']))).dropWhile isWs =
      ref ++ (ws2 ++ [']', ']']) := by
    rw [dropWhile_append_all isWs _ _ hws1, dropWhile_head_false isWs _ hheadX]
  have hsplit : splitRB (ref ++ (ws2 ++ [']', ']'])) = some (ref ++ ws2, []) := by
    have hsh : ref ++ (ws2 ++ [']', ']']) = (ref ++ ws2) ++ ']' :: ']' :: [] := by
      simp [List.append_assoc]
    rw [hsh]
    refine splitRB_first _ _ ?_
    intro c hc
    rcases List.mem_append.mp hc with hc1 | hc2
    · exact (hch c hc1).1
    · exact ws_ne_rb (hws2 c hc2)
  have hrstrip : rstrip (ref ++ ws2) = ref := rstrip_append_ws ref ws2 hws2 hlast
  have hcontains : (rstrip (ref ++ ws2)).contains '\n' = false := by
    rw [hrstrip]
    cases hcc : ref.contains '\n'
    · rfl
    · exact absurd (List.mem_of_elem_eq_true hcc) (fun hm => (hch _ hm).2 rfl)
  have htry : tryDirective (ws1 ++ (ref ++ (ws2 ++ [']', ']']))) =
      some (ws1 ++ (ref ++ ws2) ++ [']', ']'], ref, []) := by
    unfold tryDirective
    rw [hdropW]
    simp only [hsplit]
    rw [if_neg (by rw [hcontains]; exact Bool.false_ne_true), htake, hrstrip]
  have hfm := findMatch_incTok _ _ _ _ htry
  have hshape : ws1 ++ (ref ++ ws2) ++ [']', ']'] = ws1 ++ (ref ++ (ws2 ++ [']', ']'])) := by
    simp [List.append_assoc]
  rw [hshape] at hfm
  have hpos : 0 < (incTok ++ (ws1 ++ (ref ++ (ws2 ++ [']', ']'])))).length := by
    simp [incTok]
  rcases hlen : (incTok ++ (ws1 ++ (ref ++ (ws2 ++ [']', ']'])))).length with _ | n
  · omega
  · rw [scan, hlen]
    simp only [scanFuel, hfm, scanFuel_nil]

/-- C8: the scanner decomposes any template into non-overlapping matches
in left-to-right order (the preceding texts, matched texts and trailing
text concatenate back to the template); every matched directive is the
literal `[[include:` opener, white-space, the trimmed newline-free
capture, white-space, and the first `]]` after the opener (no `]]`
occurs earlier in the matched text); and a directive with arbitrary
white-space around its reference is matched with exactly that reference
as the capture. -/
theorem scan_directive_shape :
    (∀ (s : List Char), scanRecon (scan s).1 (scan s).2 = s ∧
      ∀ pre mt cap, (pre, mt, cap) ∈ (scan s).1 → MatchShape mt cap) ∧
    (∀ ws1 ws2 ref, allWsL ws1 → allWsL ws2 → ref ≠ [] →
      (∀ c ∈ ref, c ≠ ']' ∧ c ≠ '\n') →
      (∀ c, ref.head? = some c → isWs c = false) →
      (∀ c, ref.getLast? = some c → isWs c = false) →
      scan (incTok ++ (ws1 ++ (ref ++ (ws2 ++ [']', ']'])))) =
        ([([], incTok ++ (ws1 ++ (ref ++ (ws2 ++ [']', ']']))), ref)], [])) := by
  constructor
  · intro s
    exact scanFuel_spec s.length s (le_refl _)
  · intro ws1 ws2 ref h1 h2 h3 h4 h5 h6
    exact scan_tolerance ws1 ws2 ref h1 h2 h3 h4 h5 h6

/-- Witness for C8: a concrete template decomposes exactly, its match has
the directive shape, and a padded directive `[[include: x ]]` captures
`x`. -/
theorem scan_directive_shape_witness :
    (scanRecon (scan "a [[include: x]] b".data).1 (scan "a [[include: x]] b".data).2 =
      "a [[include: x]] b".data) ∧
    MatchShape "[[include: x]]".data "x".data ∧
    scan (incTok ++ (" ".data ++ ("x".data ++ (" ".data ++ [']', ']'])))) =
      ([([], incTok ++ (" ".data ++ ("x".data ++ (" ".data ++ [']', ']']))), "x".data)], []) :=
  ⟨(scan_directive_shape.1 "a [[include: x]] b".data).1,
   (scan_directive_shape.1 "a [[include: x]] b".data).2 "a ".data "[[include: x]]".data
     "x".data (by decide),
   scan_directive_shape.2 " ".data " ".data "x".data (by decide) (by decide) (by decide)
     (by decide)
     (fun c hc => by rw [← Option.some.inj hc]; decide)
     (fun c hc => by rw [← Option.some.inj hc]; decide)⟩
